import Mathlib

/-!
# Verification of the VCMS Fact-Extraction and Consolidation Engine

Shallow embedding of `backend/filename_parser.py` and
`backend/metadata_processor.py` (the filename parser, the fact
consolidator, and the standardized name builder), together with proofs
of the specified properties.

Strings are modelled as `List Char` internally (ASCII character classes
model Python's regex classes for the inputs under consideration);
top-level API functions operate on `String`.
-/

namespace VCMS

/-! ## Character classes (models of the Python regex character classes) -/

/-- Model of Python's `\s` (ASCII whitespace as used by `re`). -/
def pyWs (c : Char) : Bool :=
  c = ' ' || c = '\t' || c = '\n' || c = '\r' || c = '\x0b' || c = '\x0c'

/-- ASCII uppercase letter, the class `[A-Z]`. -/
def isUpperAZ (c : Char) : Bool := 'A' ≤ c && c ≤ 'Z'

/-- ASCII lowercase letter, the class `[a-z]`. -/
def isLowerAZ (c : Char) : Bool := 'a' ≤ c && c ≤ 'z'

/-- ASCII digit, the class `\d`. -/
def isDigit09 (c : Char) : Bool := '0' ≤ c && c ≤ '9'

/-- ASCII letter or digit, the class `[A-Za-z0-9]`. -/
def isAlnum (c : Char) : Bool := isUpperAZ c || isLowerAZ c || isDigit09 c

/-- Model of the regex class `\w` (word character). -/
def isWordChar (c : Char) : Bool := isAlnum c || c = '_'

/-- Interior class of `CODE_PATTERN_BRACKETS`: `[\w.-]`. -/
def isBracketCodeChar (c : Char) : Bool := isWordChar c || c = '.' || c = '-'

/-- The class `[a-z']` used for the tail of a suffix-heuristic name atom. -/
def isLowerApos (c : Char) : Bool := isLowerAZ c || c = '\''

/-- The class `[\w\s'.-]` used for dash-separated actor segments. -/
def isDashNameChar (c : Char) : Bool :=
  isWordChar c || pyWs c || c = '\'' || c = '.' || c = '-'

/-- The class `[_\s]` (suffix-heuristic separators). -/
def isSuffixSep (c : Char) : Bool := c = '_' || pyWs c

/-- The class `[_.-]` used by the episode-marker filter. -/
def isEpSep (c : Char) : Bool := c = '_' || c = '.' || c = '-'

/-- The strip set `" _-."` used repeatedly by the parser. -/
def isStripSepChar (c : Char) : Bool := c = ' ' || c = '_' || c = '-' || c = '.'

/-! ## Generic string utilities (models of the Python `str` methods used) -/

/-- Model of ASCII `str.lower` on one character. -/
def pyLowerChar (c : Char) : Char :=
  if isUpperAZ c then Char.ofNat (c.toNat + 32) else c

/-- Model of `str.lower` (ASCII). -/
def pyLower (l : List Char) : List Char := l.map pyLowerChar

/-- Strip characters satisfying `p` from both ends (model of `str.strip(chars)`). -/
def pyStrip (p : Char → Bool) (l : List Char) : List Char :=
  ((l.dropWhile p).reverse.dropWhile p).reverse

/-- Model of `str.isdigit()` for ASCII strings. -/
def pyIsDigit (l : List Char) : Bool := !l.isEmpty && l.all isDigit09

/-- `needle` occurs as a contiguous substring of `hay` (model of Python `in`). -/
def containsSub (needle hay : List Char) : Bool :=
  match hay with
  | [] => needle.isEmpty
  | _ :: t => needle.isPrefixOf hay || containsSub needle t

/-- Replace every occurrence of character `a` by `b` (model of `str.replace` on chars). -/
def replaceChar (a b : Char) (l : List Char) : List Char :=
  l.map (fun c => if c = a then b else c)

/-- Model of `re.sub(r"\s+", " ", s)`: collapse every whitespace run to one
space (a whitespace character whose successor is also whitespace is dropped;
the last character of each run becomes `' '`). -/
def collapseWs : List Char → List Char
  | [] => []
  | [c] => if pyWs c then [' '] else [c]
  | c :: d :: rest =>
    if pyWs c && pyWs d then collapseWs (d :: rest)
    else (if pyWs c then ' ' else c) :: collapseWs (d :: rest)

/-- Worker for `collapseWs2`; `inRun` records that the current whitespace
characters continue a run whose single `' '` has already been emitted. -/
def collapseWs2Go : Bool → List Char → List Char
  | _, [] => []
  | inRun, c :: rest =>
    if pyWs c then
      if inRun then collapseWs2Go true rest
      else
        match rest with
        | [] => [c]
        | d :: _ =>
          if pyWs d then ' ' :: collapseWs2Go true rest
          else c :: collapseWs2Go false rest
    else c :: collapseWs2Go false rest

/-- Model of `re.sub(r"\s{2,}", " ", s)`: collapse whitespace runs of length
≥ 2 to a single space, leaving isolated whitespace characters unchanged. -/
def collapseWs2 (l : List Char) : List Char := collapseWs2Go false l

/-- Split a list at every character satisfying `p`, dropping the separators
(pieces may be empty, as with `re.split` on a single-character pattern). -/
def splitOnChar (p : Char → Bool) : List Char → List (List Char)
  | [] => [[]]
  | c :: rest =>
    if p c then [] :: splitOnChar p rest
    else
      match splitOnChar p rest with
      | [] => [[c]]
      | piece :: more => (c :: piece) :: more

/-- Split on maximal runs of characters satisfying `p`, dropping empty pieces
(model of `[x for x in re.split(r"[_\s]+", s) if x]`). -/
def splitRuns (p : Char → Bool) (l : List Char) : List (List Char) :=
  (splitOnChar p l).filter (fun x => !x.isEmpty)

/-- The base of `s.rsplit('.', 1)`: everything before the last `'.'`,
or `s` itself if it has no dot. -/
def rsplitDotBase (l : List Char) : List Char :=
  if l.contains '.' then
    (((l.reverse).dropWhile (· ≠ '.')).drop 1).reverse
  else l

/-- Model of `os.path.splitext(p)[0]` for a bare filename (no directory
separators): split at the last dot unless every character before it is a dot. -/
def splitextBase (l : List Char) : List Char :=
  if l.contains '.' then
    let pre := (((l.reverse).dropWhile (· ≠ '.')).drop 1).reverse
    if pre.any (· ≠ '.') then pre else l
  else l

/-! ## Code Extractor (`_extract_code`)

`CODE_PATTERN_BRACKETS = \[([\w.-]+)\]`: the leftmost match of this
pattern starts at a `'['` followed by a maximal nonempty run of interior
characters terminated by `']'` (the greedy run cannot backtrack because
`']'` is not an interior character). -/

/-- Leftmost match of `CODE_PATTERN_BRACKETS`: returns
`(text before the match, bracket interior, text after the match)`. -/
def bracketFind : List Char → Option (List Char × List Char × List Char)
  | [] => none
  | c :: rest =>
    if c = '[' then
      let run := rest.takeWhile isBracketCodeChar
      let after := rest.dropWhile isBracketCodeChar
      if !run.isEmpty && after.head? = some ']' then
        some ([], run, after.drop 1)
      else
        (fun (p, i, q) => (c :: p, i, q)) <$> bracketFind rest
    else
      (fun (p, i, q) => (c :: p, i, q)) <$> bracketFind rest

/-- One iteration of `(?:[A-Z][A-Za-z0-9]*_)` in `CODE_PATTERN_NO_BRACKETS`
(deterministic: the greedy alphanumeric run must be maximal since `'_'`
is not alphanumeric). Returns `(consumed, rest)`. -/
def nbIterA : List Char → Option (List Char × List Char)
  | [] => none
  | c :: rest =>
    if isUpperAZ c then
      let run := rest.takeWhile isAlnum
      match rest.dropWhile isAlnum with
      | '_' :: rest2 => some (c :: run ++ ['_'], rest2)
      | _ => none
    else none

/-- The tail `[A-Z][A-Za-z0-9]*[-_][A-Za-z0-9]*\d[A-Za-z0-9]*` of
`CODE_PATTERN_NO_BRACKETS` (deterministic for the same reason; the final
digit-containing run always extends to the maximal alphanumeric run). -/
def nbBCD : List Char → Option (List Char × List Char)
  | [] => none
  | c :: rest =>
    if isUpperAZ c then
      let run := rest.takeWhile isAlnum
      match rest.dropWhile isAlnum with
      | s :: rest2 =>
        if s = '-' || s = '_' then
          let run2 := rest2.takeWhile isAlnum
          if run2.any isDigit09 then
            some (c :: run ++ s :: run2, rest2.dropWhile isAlnum)
          else none
        else none
      | [] => none
    else none

/-- Fuelled worker for `nbSeq` (each `nbIterA` iteration consumes at least
two characters, so `l.length + 1` units of fuel always suffice and the fuel
never runs out; fuel keeps the recursion structural). -/
def nbSeqF : Nat → List Char → Option (List Char × List Char)
  | 0, _ => none
  | fuel + 1, l =>
    match nbIterA l with
    | some (it, rest) =>
      match nbSeqF fuel rest with
      | some (m, rest2) => some (it ++ m, rest2)
      | none => nbBCD l
    | none => nbBCD l

/-- The full body of `CODE_PATTERN_NO_BRACKETS` at a fixed start position,
with the regex engine's greedy star backtracking (try the maximal number of
`nbIterA` iterations first, then give back one iteration at a time). -/
def nbSeq (l : List Char) : Option (List Char × List Char) :=
  nbSeqF (l.length + 1) l

/-- Leftmost match of `CODE_PATTERN_NO_BRACKETS`: `(before, match, after)`. -/
def nbFind : List Char → Option (List Char × List Char × List Char)
  | [] => none
  | c :: rest =>
    match nbSeq (c :: rest) with
    | some (m, after) => some ([], m, after)
    | none => (fun (p, i, q) => (c :: p, i, q)) <$> nbFind rest

/-- `w` is a suffix of `body` and the character of `body` immediately before
it satisfies `sep`. -/
def endsWithWordSep (sep : Char → Bool) (w body : List Char) : Bool :=
  w.isSuffixOf body &&
    (match (body.take (body.length - w.length)).getLast? with
     | some c => sep c
     | none => false)

/-- The marker words of the episode/part filter applied to non-bracketed codes. -/
def epWords : List (List Char) :=
  ["ep", "episode", "part", "vol", "chapter", "sc"].map String.data

/-- Model of `re.search(r"[_.-](?:ep|episode|part|vol|chapter|sc)[_.-]?\d+$", code, IGNORECASE)`
being truthy.  A match exists iff the string ends in a nonempty digit run whose
maximal extent is preceded (optionally via one `[_.-]`) by one of the marker
words, itself preceded by a `[_.-]` character. -/
def epMarkerHit (m : List Char) : Bool :=
  let l := pyLower m
  let ds := (l.reverse.takeWhile isDigit09).length
  if ds = 0 then false
  else
    let body := l.take (l.length - ds)
    epWords.any (fun w =>
      endsWithWordSep isEpSep w body ||
      (match body.getLast? with
       | some c => isEpSep c && endsWithWordSep isEpSep w body.dropLast
       | none => false))

/-- `_extract_code`: bracketed codes win; otherwise a non-bracketed code is
accepted unless it trips the episode-marker filter (in which case the function
returns no code at all, without trying further matches, as in the source).
The matched span is removed and the remainder stripped of `" _-."`. -/
def extractCode (l : List Char) : Option (List Char) × List Char :=
  match bracketFind l with
  | some (pre, interior, post) => (some interior, pyStrip isStripSepChar (pre ++ post))
  | none =>
    match nbFind l with
    | some (pre, m, post) =>
      if epMarkerHit m then (none, l)
      else (some m, pyStrip isStripSepChar (pre ++ post))
    | none => (none, l)

/-! ## Actor-Span Extractor, Heuristic A (`_extract_actors_dash_separated`)

`ACTOR_PATTERN_DASH_SEPARATOR = \s-\s+((?:[A-Z][\w\s'.-]+?)(?:\s*[,&]\s*[A-Z][\w\s'.-]+?)*)$`.
Because the segment class `[\w\s'.-]` excludes `','` and `'&'`, a match at a
given start exists iff the whole text after `\s-\s+` splits at the `,`/`&`
characters into pieces each of the form (optional leading whitespace for
non-initial pieces) `[A-Z]` followed by one or more class characters; and when
a match exists the captured group is always the entire text to the end. -/

/-- One comma/ampersand-separated piece of the dash-actor span.
`allowLeadingWs` is true for non-initial pieces (the separator's `\s*`). -/
def dashSegOk (allowLeadingWs : Bool) (piece : List Char) : Bool :=
  let q := if allowLeadingWs then piece.dropWhile pyWs else piece
  match q with
  | c :: rest => isUpperAZ c && !rest.isEmpty && rest.all isDashNameChar
  | [] => false

/-- Whether the text after `\s-\s+` matches the captured actor list to `$`. -/
def dashTextOk (t : List Char) : Bool :=
  match splitOnChar (fun c => c = ',' || c = '&') t with
  | [] => false
  | p0 :: more => dashSegOk false p0 && more.all (dashSegOk true)

/-- Leftmost match of `ACTOR_PATTERN_DASH_SEPARATOR`:
`(text before the match, captured actor text)`. -/
def dashFind : List Char → Option (List Char × List Char)
  | [] => none
  | c :: rest =>
    let here : Option (List Char) :=
      if pyWs c then
        match rest with
        | '-' :: rest2 =>
          let t := rest2.dropWhile pyWs
          if !(rest2.takeWhile pyWs).isEmpty && dashTextOk t then some t else none
        | _ => none
      else none
    match here with
    | some t => some ([], t)
    | none => (fun (p, t) => (c :: p, t)) <$> dashFind rest

/-- `_extract_actors_dash_separated`: split the captured text on `,`/`&`,
strip each name, replace underscores with spaces, drop empties; the remainder
is the text before the match stripped of `" _-."`. -/
def extractActorsDash (l : List Char) : List (List Char) × List Char :=
  match dashFind l with
  | some (pre, t) =>
    let names := ((splitOnChar (fun c => c = ',' || c = '&') t).map
        (fun n => replaceChar '_' ' ' (pyStrip pyWs n))).filter (fun n => !n.isEmpty)
    (names, pyStrip isStripSepChar pre)
  | none => ([], l)

/-! ## Actor-Span Extractor, Heuristic B (`_extract_actors_suffix_heuristic`)

`ACTOR_PATTERN_SUFFIX_HEURISTIC = [_\s](([A-Z][a-z']+|[A-Z])(?:[_\s]([A-Z][a-z']+|[A-Z]))?)$`.
A name atom is an uppercase letter followed by zero or more `[a-z']`
characters (covering both alternatives).  The candidate is the whole text
after the introducing separator, and must consist of one atom, or two atoms
joined by a single `[_\s]` character. -/

/-- One name atom: `[A-Z][a-z']+` or a bare `[A-Z]`. -/
def atomOk : List Char → Bool
  | c :: rest => isUpperAZ c && rest.all isLowerApos
  | [] => false

/-- Whether `t` (the text after the introducing separator, to end of string)
matches the candidate group of the suffix-heuristic pattern. -/
def suffixCandOk (t : List Char) : Bool :=
  let a := t.takeWhile (fun c => !isSuffixSep c)
  match t.dropWhile (fun c => !isSuffixSep c) with
  | [] => atomOk t
  | _ :: b => atomOk a && atomOk b

/-- Leftmost match of `ACTOR_PATTERN_SUFFIX_HEURISTIC`:
`(text before the match, introducing separator, candidate)`. -/
def suffixFind : List Char → Option (List Char × Char × List Char)
  | [] => none
  | c :: rest =>
    if isSuffixSep c && suffixCandOk rest then some ([], c, rest)
    else (fun (p, s, t) => (c :: p, s, t)) <$> suffixFind rest

/-- The blacklist `COMMON_NON_ACTOR_WORDS`. -/
def commonNonActorWords : List (List Char) :=
  ["in", "on", "of", "a", "an", "the", "is", "at", "to", "and", "or", "but",
   "vs", "vs.", "part", "ep", "episode", "vol", "volume", "chapter", "scene",
   "official", "trailer", "movie", "film", "video", "clip", "final",
   "extended", "uncut", "remastered", "ost", "soundtrack", "dvd", "hd", "sd",
   "bd", "cd"].map String.data

/-- The words of `COMMON_SUFFIX_NON_ACTOR_PATTERN`. -/
def commonSuffixWords : List (List Char) :=
  ["part", "ep", "vol", "chapter", "scene", "the", "an", "a"].map String.data

/-- Model of `COMMON_SUFFIX_NON_ACTOR_PATTERN.search(cand)` being truthy:
`(?:Part|Ep|Vol|Chapter|Scene|The|An|A)[_\s]?\d+$`, case-insensitive. -/
def commonSuffixHit (m : List Char) : Bool :=
  let l := pyLower m
  let ds := (l.reverse.takeWhile isDigit09).length
  if ds = 0 then false
  else
    let body := l.take (l.length - ds)
    commonSuffixWords.any (fun w =>
      w.isSuffixOf body ||
      (match body.getLast? with
       | some c => isSuffixSep c && w.isSuffixOf body.dropLast
       | none => false))

/-- `" ".join(parts)`. -/
def joinSpaces (parts : List (List Char)) : List Char :=
  List.intercalate [' '] parts

/-- Validity of one split name part, as checked in the source loop:
a bare `[A-Z]` initial, or a `[A-Z][a-z']+` word that is not a common word. -/
def namePartOk (p : List Char) : Bool :=
  (match p with
   | [c] => isUpperAZ c
   | _ => false) ||
  (match p with
   | c :: rest =>
     isUpperAZ c && !rest.isEmpty && rest.all isLowerApos &&
       !commonNonActorWords.contains (pyLower p)
   | [] => false)

/-- `_extract_actors_suffix_heuristic`. -/
def extractActorsSuffix (l : List Char) : List (List Char) × List Char :=
  match suffixFind l with
  | none => ([], l)
  | some (pre, sep, cand) =>
    if commonSuffixHit cand || commonNonActorWords.contains (pyLower cand) then
      ([], l)
    else
      let parts := splitRuns isSuffixSep cand
      if parts.all namePartOk && !parts.isEmpty then
        let actors :=
          if parts.length > 1 && (sep :: cand).contains '_' then parts
          else [joinSpaces parts]
        (actors, pyStrip isStripSepChar pre)
      else ([], l)

/-! ## Title Normalizer and parser orchestration -/

/-- Python truthiness of an optional string field. -/
def optTruthyL (o : Option (List Char)) : Bool :=
  match o with
  | some x => !x.isEmpty
  | none => false

/-- `_normalize_title`. -/
def normalizeTitle (cand : List Char) (code : Option (List Char)) : Option (List Char) :=
  if cand.isEmpty then none
  else
    let t := collapseWs (replaceChar '_' ' ' (replaceChar '.' ' ' cand))
    let t := pyStrip (fun c => c = ' ' || c = '-') t
    if optTruthyL code && pyLower t = pyLower (code.getD []) then none
    else if t.isEmpty then none
    else some t

/-- The dict-based case-insensitive dedup loop of `parse_filename`
(`seen` accumulates the lowercase keys already inserted). -/
def dedupCIGo (seen : List (List Char)) : List (List Char) → List (List Char)
  | [] => []
  | x :: xs =>
    if seen.contains (pyLower x) then dedupCIGo seen xs
    else x :: dedupCIGo (pyLower x :: seen) xs

/-- Case-insensitive de-duplication keeping the first-seen casing, in
insertion order (the `combined_actors_map` dict of `parse_filename`). -/
def dedupCI (l : List (List Char)) : List (List Char) := dedupCIGo [] l

/-- The straight-line extraction pipeline of `parse_filename` on an
extension-stripped base: code, dash actors, suffix actors (only when the
dash heuristic found none), and the final remainder. -/
def parseBase (base : List Char) :
    Option (List Char) × List (List Char) × List (List Char) × List Char :=
  let (code, r1) := extractCode base
  let (adash, r2) := extractActorsDash r1
  let (asuf, r3) := if adash.isEmpty then extractActorsSuffix r2 else ([], r2)
  (code, adash, asuf, r3)

/-- The record returned by `parse_filename`. -/
structure ParsedFacts where
  code : Option String
  actors : List String
  title : Option String
  original_filename : String
deriving DecidableEq, Repr

/-- `parse_filename`. -/
def parse_filename (s : String) : ParsedFacts :=
  let l := s.data
  if l.isEmpty || l.head? = some '.' then
    ⟨none, [], none, s⟩
  else
    let base := rsplitDotBase l
    if base.isEmpty then ⟨none, [], none, s⟩
    else
      let (code, adash, asuf, r3) := parseBase base
      let actors := dedupCI (adash ++ asuf)
      let t1 := normalizeTitle r3 code
      let title :=
        if !optTruthyL t1 && actors.isEmpty && optTruthyL code &&
            pyLower base = pyLower (code.getD []) then
          none
        else if !optTruthyL t1 && !base.isEmpty && actors.isEmpty &&
            !optTruthyL code then
          normalizeTitle base none
        else t1
      ⟨code.map String.mk, actors.map String.mk, title.map String.mk, s⟩

/-! ## Metadata processor: `_sanitize_filename_part` and
`generate_standardized_filename` -/

/-- The characters replaced by `_sanitize_filename_part`: `[\\/:*?"<>|]`. -/
def isSanitizeBad (c : Char) : Bool :=
  c = '\\' || c = '/' || c = ':' || c = '*' || c = '?' || c = '"' ||
  c = '<' || c = '>' || c = '|'

/-- `_sanitize_filename_part` (on a string argument): replace unsuitable
characters with `'_'`, collapse whitespace runs, strip whitespace. -/
def sanitizePart (l : List Char) : List Char :=
  pyStrip pyWs (collapseWs (l.map (fun c => if isSanitizeBad c then '_' else c)))

/-- An element of the `actors` list handed to the Standardized Name Builder:
either not a dict at all, or a dict whose `"canonical_name"` entry may be
missing (`none`) or any string (possibly empty). -/
inductive PyActorEntry where
  | notDict : PyActorEntry
  | dictEntry (canonical_name : Option String) : PyActorEntry
deriving DecidableEq, Repr

/-- The comprehension guard `isinstance(actor, dict) and actor.get("canonical_name")`:
yields the canonical name when the entry is a dict with a truthy name. -/
def goodCanonical : PyActorEntry → Option (List Char)
  | .dictEntry (some s) => if s.data.isEmpty then none else some s.data
  | _ => none

/-- Python string comparison: lexicographic by code point. -/
def pyStrLe : List Char → List Char → Bool
  | [], _ => true
  | _ :: _, [] => false
  | a :: as, b :: bs => if a = b then pyStrLe as bs else decide (a < b)

/-- The consolidated-metadata dictionary as consumed by
`generate_standardized_filename` (fields it reads; `.get` of a possibly
missing key is an `Option`). -/
structure ConsolidatedMeta where
  code : Option String
  publisher : Option String
  title : Option String
  actors : List PyActorEntry
  original_filename_for_fallback : Option String
deriving DecidableEq, Repr

/-- Python truthiness filter on an optional string (`None` and `""` falsy). -/
def truthyD (o : Option String) : Option String :=
  match o with
  | some s => if s.data.isEmpty then none else some s
  | none => none

/-- The leading `[code]`/`[publisher]` segment (empty list if neither is truthy). -/
def gsfBracket (m : ConsolidatedMeta) : List Char :=
  match truthyD m.code with
  | some c => '[' :: (sanitizePart c.data ++ [']'])
  | none =>
    match truthyD m.publisher with
    | some p => '[' :: (sanitizePart p.data ++ [']'])
    | none => []

/-- The title segment (the sanitized title, or the `"Unknown_Title"` placeholder). -/
def gsfTitlePart (m : ConsolidatedMeta) : List Char :=
  match truthyD m.title with
  | some t => sanitizePart t.data
  | none => "Unknown_Title".data

/-- Insert `x` after every element `≤ x` (stable insertion step). -/
def insertLe (x : List Char) : List (List Char) → List (List Char)
  | [] => [x]
  | y :: ys => if pyStrLe y x then y :: insertLe x ys else x :: y :: ys

/-- Model of Python's `sorted` on strings: stable sort in lexicographic
code-point order (as a stable insertion sort). -/
def sortPyStrings (l : List (List Char)) : List (List Char) :=
  l.foldl (fun acc x => insertLe x acc) []

/-- The sorted, sanitized canonical names of renderable actor entries. -/
def gsfActorNames (actors : List PyActorEntry) : List (List Char) :=
  sortPyStrings ((actors.filterMap goodCanonical).map sanitizePart)

/-- The `"- Actor1, Actor2"` segment; `none` when no renderable names exist. -/
def gsfActorSegment (actors : List PyActorEntry) : Option (List Char) :=
  let ns := gsfActorNames actors
  if ns.isEmpty then none
  else some ('-' :: ' ' :: List.intercalate [',', ' '] ns)

/-- The `filename_parts` list built by `generate_standardized_filename`. -/
def gsfParts (m : ConsolidatedMeta) : List (List Char) :=
  (if (gsfBracket m).isEmpty then [] else [gsfBracket m]) ++
  [gsfTitlePart m] ++
  (match gsfActorSegment m.actors with
   | some seg => [seg]
   | none => [])

/-- The joined, whitespace-normalized base name before the fallback check:
`" ".join(parts).strip()` then `re.sub(r"\s{2,}", " ", ·).strip()`. -/
def gsfBase (m : ConsolidatedMeta) : List Char :=
  pyStrip pyWs (collapseWs2 (pyStrip pyWs (joinSpaces (gsfParts m))))

/-- The fallback base: sanitized `splitext` base of the original filename
(defaulting to `"Untitled_Video"` when the key is missing), or the literal
`"Untitled_Video"` if that sanitizes to empty. -/
def gsfFallbackBase (m : ConsolidatedMeta) : List Char :=
  let ob := splitextBase (m.original_filename_for_fallback.getD "Untitled_Video").data
  let sb := sanitizePart ob
  if sb.isEmpty then "Untitled_Video".data else sb

/-- The 200-character truncation rule. -/
def truncate200 (l : List Char) : List Char :=
  if 200 < l.length then pyStrip isStripSepChar (l.take 200) else l

/-- Extension validation: must be nonempty and start with `'.'`
(`original_extension and original_extension.startswith(".")`), else `".unknown"`. -/
def validExt (ext : String) : List Char :=
  match ext.data with
  | '.' :: _ => ext.data
  | _ => ".unknown".data

/-- `generate_standardized_filename`. -/
def generate_standardized_filename (m : ConsolidatedMeta) (ext : String) : String :=
  let base1 := gsfBase m
  let base2 :=
    if base1.isEmpty ||
        (base1 = "Unknown_Title".data && (gsfBracket m).isEmpty && m.actors.isEmpty) then
      gsfFallbackBase m
    else base1
  String.mk (truncate200 base2 ++ validExt ext)

/-! ## Fact Consolidator: `_consolidate_title` -/

/-- `_consolidate_title`. -/
def consolidate_title (parsed llm : Option String) (fallback : String) : String :=
  let ft : Option (List Char) := parsed.map String.data
  let ft :=
    match truthyD llm with
    | some lt =>
      let weak :=
        match ft with
        | none => true
        | some s =>
          s.isEmpty || s.length < 5 || containsSub "untitled".data (pyLower s) ||
          pyIsDigit s ||
          pyLower s =
            replaceChar '.' ' ' (replaceChar '_' ' '
              (pyLower (splitextBase fallback.data)))
      if weak then some lt.data else ft
    | none => ft
  if optTruthyL ft then String.mk (ft.getD [])
  else
    let fb := sanitizePart (splitextBase fallback.data)
    if fb.isEmpty then "Unknown Title" else String.mk fb

/-! ## Fact Consolidator: the actor map
(`process_video_file`'s filename pass and `_consolidate_actors`) -/

/-- One consolidated actor dictionary
(`{'id': ..., 'canonical_name': ..., 'source': ...}`). -/
structure ActorFact where
  id : Option Nat
  canonical_name : String
  source : String
deriving DecidableEq, Repr

/-- Keys of `current_actors_map`: a registry id (`int`) or a lowercase name
(`str`); in Python the two key spaces never collide. -/
abbrev ActorKey := Sum Nat String

/-- The actor map: a Python dict modelled as an insertion-ordered
association list. -/
abbrev ActorMap := List (ActorKey × ActorFact)

/-- Dict lookup. -/
def amFind (m : ActorMap) (k : ActorKey) : Option ActorFact :=
  match List.find? (fun p => p.1 = k) m with
  | some p => some p.2
  | none => none

/-- Dict assignment `m[k] = v`: replace in place if present, else append. -/
def amSet (m : ActorMap) (k : ActorKey) (v : ActorFact) : ActorMap :=
  match m with
  | [] => [(k, v)]
  | p :: rest => if p.1 = k then (k, v) :: rest else p :: amSet rest k v

/-- In-place update `m[k]["canonical_name"] = c` (no-op on a missing key). -/
def amSetCanonical (m : ActorMap) (k : ActorKey) (c : String) : ActorMap :=
  match m with
  | [] => []
  | p :: rest =>
    if p.1 = k then (p.1, { p.2 with canonical_name := c }) :: rest
    else p :: amSetCanonical rest k c

/-- Python truthiness of `actor_id` (`None` and `0` are falsy). -/
def optNatTruthy (o : Option Nat) : Bool :=
  match o with
  | some n => n ≠ 0
  | none => false

/-- The canonical-name choice `canonical_name = db_name if db_name else name`
(with the `if db_name:` truthiness check). -/
def canonFromDb (nameById : Nat → Option String) (id : Nat) (name : String) : String :=
  match nameById id with
  | some s => if s.isEmpty then name else s
  | none => name

/-- One iteration of the filename-actor loop in `process_video_file`. -/
def filenameActorStep (lookupId : String → Option Nat)
    (nameById : Nat → Option String) (m : ActorMap) (name : String) : ActorMap :=
  match lookupId name with
  | some id =>
    if id ≠ 0 then
      amSet m (Sum.inl id)
        ⟨some id, canonFromDb nameById id name, "filename_db_match"⟩
    else if (amFind m (Sum.inr (String.mk (pyLower name.data)))).isSome then m
    else m ++ [(Sum.inr (String.mk (pyLower name.data)),
        ⟨none, name, "filename_no_db_match"⟩)]
  | none =>
    if (amFind m (Sum.inr (String.mk (pyLower name.data)))).isSome then m
    else m ++ [(Sum.inr (String.mk (pyLower name.data)),
        ⟨none, name, "filename_no_db_match"⟩)]

/-- The `actors_map` built from the parsed filename actors. -/
def buildActorsMap (lookupId : String → Option Nat)
    (nameById : Nat → Option String) (names : List String) : ActorMap :=
  names.foldl (filenameActorStep lookupId nameById) []

/-- One iteration of the LLM-actor loop in `_consolidate_actors`. -/
def llmActorStep (lookupId : String → Option Nat)
    (nameById : Nat → Option String) (m : ActorMap) (name : String) : ActorMap :=
  match lookupId name with
  | some id =>
    if id ≠ 0 then
      let canonical := canonFromDb nameById id name
      if (amFind m (Sum.inl id)).isSome then amSetCanonical m (Sum.inl id) canonical
      else m ++ [(Sum.inl id, ⟨some id, canonical, "llm_db_match"⟩)]
    else if (amFind m (Sum.inr (String.mk (pyLower name.data)))).isSome then m
    else m ++ [(Sum.inr (String.mk (pyLower name.data)),
        ⟨none, name, "llm_no_db_match"⟩)]
  | none =>
    if (amFind m (Sum.inr (String.mk (pyLower name.data)))).isSome then m
    else m ++ [(Sum.inr (String.mk (pyLower name.data)),
        ⟨none, name, "llm_no_db_match"⟩)]

/-- `_consolidate_actors`: merge LLM actors into the map (when the LLM list
is truthy) and return the map's values. -/
def consolidate_actors (lookupId : String → Option Nat)
    (nameById : Nat → Option String) (m : ActorMap)
    (llmActors : Option (List String)) : List ActorFact :=
  let m' :=
    match llmActors with
    | some l => if l.isEmpty then m else l.foldl (llmActorStep lookupId nameById) m
    | none => m
  m'.map (·.2)

/-- The full actor consolidation of one processing pass: the filename pass of
`process_video_file` followed by `_consolidate_actors`. -/
def consolidatedActorList (lookupId : String → Option Nat)
    (nameById : Nat → Option String) (parsedActors : List String)
    (llmActors : Option (List String)) : List ActorFact :=
  consolidate_actors lookupId nameById
    (buildActorsMap lookupId nameById parsedActors) llmActors

/-! ## Spec-side definitions

These definitions transcribe wording of the specification (rather than the
source), for comparison against the embedded source functions. -/

/-- Spec wording of the parser's actor de-duplication: keep the first
occurrence of each case-insensitive class, in discovery order, dropping the
later duplicates. -/
def firstSeenDedup : List (List Char) → List (List Char)
  | [] => []
  | x :: xs =>
    x :: firstSeenDedup (xs.filter (fun y => pyLower y ≠ pyLower x))
termination_by l => l.length
decreasing_by
  simp only [List.length_cons]
  exact Nat.lt_succ_of_le (List.length_filter_le _ _)

/-- The actor names in heuristic discovery order (dash heuristic first, then
the suffix heuristic when the dash heuristic found nothing), before the
parser's de-duplication; empty for the degenerate early-return inputs. -/
def discoveredActors (s : String) : List (List Char) :=
  let l := s.data
  if l.isEmpty || l.head? = some '.' then []
  else
    let base := rsplitDotBase l
    if base.isEmpty then []
    else
      let (_, adash, asuf, _) := parseBase base
      adash ++ asuf

/-- The §4.3 title normalization as the spec words it (replace `.`/`_` with
spaces, collapse whitespace runs, trim spaces and hyphens). -/
def norm43 (l : List Char) : List Char :=
  pyStrip (fun c => c = ' ' || c = '-')
    (collapseWs (replaceChar '_' ' ' (replaceChar '.' ' ' l)))

/-- The weak-parsed-title test exactly as claim C4 states it: absent, shorter
than 5 characters, containing "untitled" case-insensitively, purely numeric,
or identical after the §4.3 normalization to the original filename base. -/
def weakC4Claim (parsed : Option String) (fallback : String) : Bool :=
  match truthyD parsed with
  | none => true
  | some s =>
    s.data.length < 5 || containsSub "untitled".data (pyLower s.data) ||
    pyIsDigit s.data ||
    pyLower s.data = pyLower (norm43 (splitextBase fallback.data))

/-- The title-consolidation rule exactly as claim C4 states it, for a present
LLM title: replace the parsed title iff it is weak in the claim's sense. -/
def claimC4TitleRule (parsed : Option String) (llm : String) (fallback : String) : String :=
  if weakC4Claim parsed fallback then llm else (truthyD parsed).getD ""

/-- The weak-parsed-title test the source actually implements: the comparison
with the filename base lowercases both sides and replaces `_` and `.` by
single spaces on the base only, without collapsing whitespace runs. -/
def weakParsedTitle (parsed : Option String) (fallback : String) : Bool :=
  match parsed with
  | none => true
  | some s =>
    s.data.isEmpty || s.data.length < 5 ||
    containsSub "untitled".data (pyLower s.data) || pyIsDigit s.data ||
    pyLower s.data =
      replaceChar '.' ' ' (replaceChar '_' ' ' (pyLower (splitextBase fallback.data)))

/-- The amended title-consolidation rule (claim C4 with the corrected
weakness comparison), including the fallback chain. -/
def amendedTitleRule (parsed llm : Option String) (fallback : String) : String :=
  let chosen :=
    match truthyD llm with
    | some lt => if weakParsedTitle parsed fallback then some lt else parsed
    | none => parsed
  match truthyD chosen with
  | some t => t
  | none =>
    let fb := sanitizePart (splitextBase fallback.data)
    if fb.isEmpty then "Unknown Title" else String.mk fb

/-! ## General helper lemmas -/

theorem mk_data (s : String) : String.mk s.data = s := rfl

/-! ## Claim theorems -/

/-- C2: for the input filename `"[ABC-123] My Title - Actor A, Actor B.mp4"`,
the Filename Parser returns code `"ABC-123"`, title `"My Title"`, and an
actor list consisting exactly of `"Actor A"` and `"Actor B"`. -/
theorem parse_filename_bracket_dash_scenario :
    parse_filename "[ABC-123] My Title - Actor A, Actor B.mp4" =
      { code := some "ABC-123", actors := ["Actor A", "Actor B"],
        title := some "My Title",
        original_filename := "[ABC-123] My Title - Actor A, Actor B.mp4" } := by
  decide

/-- C7: for an empty filename, a filename starting with `'.'`, or a filename
whose extension-stripped base is empty, the parser returns code `none`, title
`none`, no actors, and the verbatim original filename, without error. -/
theorem parse_filename_degenerate (f : String)
    (h : f.data = [] ∨ f.data.head? = some '.' ∨ rsplitDotBase f.data = []) :
    parse_filename f =
      { code := none, actors := [], title := none, original_filename := f } := by
  unfold parse_filename
  rcases h with h | h | h
  · simp [h]
  · simp [h]
  · by_cases h1 : f.data.isEmpty
    · simp [h1]
    · by_cases h2 : f.data.head? = some '.'
      · simp [h2]
      · simp [h1, h2, h]

/-- C7 witness: the `".mp4"` scenario. -/
theorem parse_filename_degenerate_witness :
    parse_filename ".mp4" =
      { code := none, actors := [], title := none, original_filename := ".mp4" } :=
  parse_filename_degenerate ".mp4" (Or.inr (Or.inl (by decide)))

/-- C4 counterexample: with parsed title `"My Movie"`, LLM title `"Z"` and
original filename `"My__Movie.mp4"`, the claimed rule (weakness via the §4.3
normalization, which collapses whitespace runs) calls the parsed title weak
and picks `"Z"`, but the source compares against the base with underscores
replaced by single spaces and no run collapsing (`"my  movie" ≠ "my movie"`),
so it keeps `"My Movie"`. -/
theorem consolidate_title_claim_counterexample :
    consolidate_title (some "My Movie") (some "Z") "My__Movie.mp4" = "My Movie" ∧
    claimC4TitleRule (some "My Movie") "Z" "My__Movie.mp4" = "Z" ∧
    consolidate_title (some "My Movie") (some "Z") "My__Movie.mp4" ≠
      claimC4TitleRule (some "My Movie") "Z" "My__Movie.mp4" := by
  refine ⟨by decide, by decide, ?_⟩
  decide

/-- C4 (amended): `_consolidate_title` replaces the parsed title with a truthy
LLM title exactly when the parsed title is weak — absent, empty, shorter than
5 characters, containing "untitled" case-insensitively, purely numeric, or
with its lowercase form equal to the extension-stripped original filename
base lowercased with `_` and `.` each replaced by a single space (without
whitespace-run collapsing) — and otherwise keeps the parsed title; with the
sanitized-base / `"Unknown Title"` fallback chain when no title survives. -/
theorem consolidate_title_eq_amended (parsed llm : Option String) (fallback : String) :
    consolidate_title parsed llm fallback = amendedTitleRule parsed llm fallback := by
  unfold consolidate_title amendedTitleRule weakParsedTitle
  cases llm with
  | none =>
    cases parsed with
    | none => simp [truthyD, optTruthyL]
    | some p =>
      by_cases hp : p.data.isEmpty
      · simp [truthyD, optTruthyL, hp]
      · simp [truthyD, optTruthyL, hp, mk_data]
  | some ls =>
    by_cases hls : ls.data.isEmpty
    · cases parsed with
      | none => simp [truthyD, optTruthyL, hls]
      | some p =>
        by_cases hp : p.data.isEmpty
        · simp [truthyD, optTruthyL, hls, hp]
        · simp [truthyD, optTruthyL, hls, hp, mk_data]
    · cases parsed with
      | none => simp [truthyD, optTruthyL, hls, mk_data]
      | some p =>
        by_cases hp : p.data.isEmpty
        · simp [truthyD, optTruthyL, hls, hp, mk_data]
        · simp only [truthyD, optTruthyL, Option.map, hls, hp,
            Bool.false_eq_true, if_false]
          split
          · simp [truthyD, optTruthyL, hls, hp, mk_data]
          · simp [truthyD, optTruthyL, hls, hp, mk_data]

/-- C8: the Standardized Name Builder, given all-`None` metadata, no actors,
extension `".mp4"` and original filename `"weird_file.mp4"`, returns exactly
`"weird_file.mp4"`; and in general, whenever the built base name is empty or
is exactly the `"Unknown_Title"` placeholder with no bracket segment and no
actor entries, the sanitized original filename base (or `"Untitled_Video"`
when that is empty, inside `gsfFallbackBase`) is substituted. -/
theorem gsf_fallback_on_empty_base :
    generate_standardized_filename
        { code := none, publisher := none, title := none, actors := [],
          original_filename_for_fallback := some "weird_file.mp4" } ".mp4" =
      "weird_file.mp4" ∧
    ∀ (m : ConsolidatedMeta) (ext : String),
      gsfBase m = [] ∨
        (gsfBase m = "Unknown_Title".data ∧ gsfBracket m = [] ∧ m.actors = []) →
      generate_standardized_filename m ext =
        String.mk (truncate200 (gsfFallbackBase m) ++ validExt ext) := by
  refine ⟨by decide, ?_⟩
  intro m ext h
  unfold generate_standardized_filename
  rcases h with h | ⟨h1, h2, h3⟩
  · simp [h]
  · have hne : ("Unknown_Title".data).isEmpty = false := by decide
    simp [h1, h2, h3, hne]

/-- C8 witness: the general fallback rule applied to the concrete
`weird_file` metadata with a different extension. -/
theorem gsf_fallback_on_empty_base_witness :
    generate_standardized_filename
        { code := none, publisher := none, title := none, actors := [],
          original_filename_for_fallback := some "weird_file.mp4" } ".avi" =
      "weird_file.avi" := by
  have h := gsf_fallback_on_empty_base.2
      { code := none, publisher := none, title := none, actors := [],
        original_filename_for_fallback := some "weird_file.mp4" } ".avi"
      (Or.inr ⟨by decide, by decide, rfl⟩)
  rw [h]; decide

/-- C10: actor entries that are not dicts or whose canonical name is missing
or empty contribute nothing to the rendered actor names (the builder is a
total function, so no entry can make it raise); and when every entry is
skipped, the `"- "` actor segment is omitted from the parts entirely. -/
theorem gsf_actor_entries_skipped :
    (∀ actors : List PyActorEntry,
      gsfActorNames actors =
        gsfActorNames (actors.filter (fun e => (goodCanonical e).isSome))) ∧
    (∀ actors : List PyActorEntry, (∀ e ∈ actors, goodCanonical e = none) →
      gsfActorSegment actors = none) ∧
    (∀ m : ConsolidatedMeta, (∀ e ∈ m.actors, goodCanonical e = none) →
      gsfParts m =
        (if (gsfBracket m).isEmpty then [] else [gsfBracket m]) ++ [gsfTitlePart m]) ∧
    gsfActorSegment [.notDict, .dictEntry none, .dictEntry (some "")] = none := by
  have hfm : ∀ l : List PyActorEntry,
      l.filterMap goodCanonical =
        (l.filter (fun e => (goodCanonical e).isSome)).filterMap goodCanonical := by
    intro l
    induction l with
    | nil => rfl
    | cons a t ih =>
      cases ha : goodCanonical a <;>
        simp [List.filterMap_cons, List.filter_cons, ha, ih]
  have hseg : ∀ actors : List PyActorEntry,
      (∀ e ∈ actors, goodCanonical e = none) → gsfActorSegment actors = none := by
    intro actors h
    have : actors.filterMap goodCanonical = [] := by
      rw [List.filterMap_eq_nil_iff]
      exact h
    simp [gsfActorSegment, gsfActorNames, sortPyStrings, this]
  refine ⟨?_, hseg, ?_, ?_⟩
  · intro actors
    unfold gsfActorNames
    rw [← hfm]
  · intro m h
    have := hseg m.actors h
    simp [gsfParts, this]
  · exact hseg _ (by decide)

/-- C3 counterexample: on `"Title_Mary Jane"` the suffix heuristic matches
with candidate `"Mary Jane"` — two accepted atoms whose separator is a
space — yet the source returns the two atoms as separate actors (because the
introducing separator `'_'` is part of `match.group(0)`), not the single
joined actor the claim requires for space-separated atoms. -/
theorem suffix_space_separated_counterexample :
    suffixFind "Title_Mary Jane".data =
      some ("Title".data, '_', "Mary Jane".data) ∧
    splitRuns isSuffixSep "Mary Jane".data = ["Mary".data, "Jane".data] ∧
    "Mary Jane".data.contains '_' = false ∧
    extractActorsSuffix "Title_Mary Jane".data =
      (["Mary".data, "Jane".data], "Title".data) ∧
    ["Mary".data, "Jane".data] ≠ [joinSpaces ["Mary".data, "Jane".data]] := by
  refine ⟨by decide, by decide, by decide, by decide, by decide⟩

/-- C3 (amended): for an accepted two-atom candidate of the suffix heuristic,
the atoms are returned as separate actors iff an underscore occurs anywhere
in the whole matched span — the introducing separator included — and are
joined into one space-separated name otherwise. -/
theorem suffix_grouping_amended (s pre : List Char) (sep : Char) (cand : List Char)
    (hf : suffixFind s = some (pre, sep, cand))
    (hbl : (commonSuffixHit cand || commonNonActorWords.contains (pyLower cand)) = false)
    (hv : (splitRuns isSuffixSep cand).all namePartOk = true)
    (h2 : (splitRuns isSuffixSep cand).length = 2) :
    extractActorsSuffix s =
      (if (sep :: cand).contains '_' then splitRuns isSuffixSep cand
       else [joinSpaces (splitRuns isSuffixSep cand)],
       pyStrip isStripSepChar pre) := by
  obtain ⟨a, b, hab⟩ := List.length_eq_two.mp h2
  unfold extractActorsSuffix
  rw [hf]
  simp only [hbl, Bool.false_eq_true, if_false]
  rw [hab] at hv ⊢
  simp only [hv, List.isEmpty_cons, Bool.not_false, Bool.and_self, if_true,
    List.length_cons, List.length_singleton, List.length_nil]
  by_cases hc : (sep :: cand).contains '_'
  · simp [hc]
  · simp [hc]

/-- C3 amended witness: `"Film Xara Yolo"` — a space-introduced, space-joined
two-atom candidate yields the single actor `"Xara Yolo"`. -/
theorem suffix_grouping_amended_witness :
    extractActorsSuffix "Film Xara Yolo".data =
      (["Xara Yolo".data], "Film".data) := by
  have h := suffix_grouping_amended "Film Xara Yolo".data "Film".data ' '
      "Xara Yolo".data (by decide) (by decide) (by decide) (by decide)
  rw [h]; decide

theorem pyLower_ne_nil {t : List Char} (h : t ≠ []) : pyLower t ≠ [] := by
  cases t with
  | nil => exact absurd rfl h
  | cons c r => simp [pyLower]

theorem normalizeTitle_ne_nil {cand : List Char} {co : Option (List Char)}
    {t : List Char} (h : normalizeTitle cand co = some t) : t ≠ [] := by
  unfold normalizeTitle at h
  by_cases h1 : cand.isEmpty
  · simp [h1] at h
  · simp only [h1, Bool.false_eq_true, if_false] at h
    split at h
    · exact absurd h (by simp)
    · split at h
      · exact absurd h (by simp)
      · rename_i h2 h3
        simp only [Option.some.injEq] at h
        subst h
        simpa using h3

theorem normalizeTitle_some_ne_code {cand cl t : List Char}
    (h : normalizeTitle cand (some cl) = some t) : pyLower t ≠ pyLower cl := by
  have hne : t ≠ [] := normalizeTitle_ne_nil h
  unfold normalizeTitle at h
  by_cases h1 : cand.isEmpty
  · simp [h1] at h
  · simp only [h1, Bool.false_eq_true, if_false] at h
    split at h
    · exact absurd h (by simp)
    · rename_i h2
      split at h
      · exact absurd h (by simp)
      · simp only [Option.some.injEq] at h
        subst h
        by_cases hcl : cl = []
        · subst hcl
          simpa [pyLower] using pyLower_ne_nil hne
        · intro heq
          exact h2 (by simp [optTruthyL, hcl, heq, List.isEmpty_iff])

/-- C5: whenever the Filename Parser returns both a code and a title, the
title is never equal to the code under case-insensitive comparison — on the
main normalization path because `_normalize_title` nulls a title equal to the
code, and on the whole-base fallback path because that path requires a falsy
code, whose lowercase form an always-nonempty title cannot equal. -/
theorem parse_title_ne_code (f c t : String)
    (hc : (parse_filename f).code = some c)
    (ht : (parse_filename f).title = some t) :
    pyLower t.data ≠ pyLower c.data := by
  unfold parse_filename at hc ht
  by_cases h1 : (f.data.isEmpty || f.data.head? = some '.') = true
  · simp [h1] at hc
  · simp only [h1, Bool.false_eq_true, if_false] at hc ht
    by_cases h2 : (rsplitDotBase f.data).isEmpty = true
    · simp [h2] at hc
    · simp only [h2, Bool.false_eq_true, if_false] at hc ht
      rcases hpb : parseBase (rsplitDotBase f.data) with ⟨co, ad, asuf, r3⟩
      rw [hpb] at hc ht
      dsimp only at hc ht
      cases co with
      | none => simp at hc
      | some cl =>
        have hc' : String.mk cl = c := by simpa using hc
        subst hc'
        split at ht
        · simp at ht
        · split at ht
          · rename_i hcond2
            have hcl : cl = [] := by
              simp only [Bool.and_eq_true, Bool.not_eq_true] at hcond2
              have h3 := hcond2.2
              simp only [optTruthyL] at h3
              simpa [List.isEmpty_iff] using h3
            cases hnt : normalizeTitle (rsplitDotBase f.data) none with
            | none => rw [hnt] at ht; simp at ht
            | some tl =>
              rw [hnt] at ht
              have ht' : String.mk tl = t := by simpa using ht
              subst ht'
              have htl : tl ≠ [] := normalizeTitle_ne_nil hnt
              subst hcl
              simpa [pyLower] using pyLower_ne_nil htl
          · cases hnt : normalizeTitle r3 (some cl) with
            | none => rw [hnt] at ht; simp at ht
            | some tl =>
              rw [hnt] at ht
              have ht' : String.mk tl = t := by simpa using ht
              subst ht'
              exact normalizeTitle_some_ne_code hnt

/-- C5 witness: the theorem applied to the bracket-code scenario input. -/
theorem parse_title_ne_code_witness :
    pyLower ("My Title" : String).data ≠ pyLower ("ABC-123" : String).data :=
  parse_title_ne_code "[ABC-123] My Title - Actor A, Actor B.mp4" "ABC-123" "My Title"
    (by decide) (by decide)

theorem dedupCIGo_eq_firstSeen (l : List (List Char)) : ∀ seen,
    dedupCIGo seen l =
      firstSeenDedup (l.filter (fun y => !seen.contains (pyLower y))) := by
  induction l with
  | nil => intro seen; simp [dedupCIGo, firstSeenDedup]
  | cons x xs ih =>
    intro seen
    rw [List.filter_cons]
    by_cases h : seen.contains (pyLower x)
    · simp only [h, Bool.not_true, Bool.false_eq_true, if_false]
      rw [show dedupCIGo seen (x :: xs) = dedupCIGo seen xs from by
        simp only [dedupCIGo, h, if_true]]
      exact ih seen
    · simp only [Bool.not_eq_true] at h
      simp only [h, Bool.not_false, if_true]
      rw [firstSeenDedup]
      simp only [dedupCIGo, h, Bool.false_eq_true, if_false]
      rw [ih (pyLower x :: seen)]
      have hfe : xs.filter (fun y => !(pyLower x :: seen).contains (pyLower y)) =
          (xs.filter (fun y => !seen.contains (pyLower y))).filter
            (fun y => pyLower y ≠ pyLower x) := by
        rw [List.filter_filter]
        apply List.filter_congr
        intro y _
        simp only [List.contains_cons]
        cases hy : seen.contains (pyLower y) <;>
          cases hxy : pyLower y == pyLower x <;> simp_all
      rw [hfe]

theorem dedupCI_eq_firstSeen (l : List (List Char)) :
    dedupCI l = firstSeenDedup l := by
  have h := dedupCIGo_eq_firstSeen l []
  simpa [dedupCI] using h

theorem firstSeenDedup_sublist_aux : ∀ (n : Nat) (l : List (List Char)),
    l.length ≤ n → (firstSeenDedup l).Sublist l := by
  intro n
  induction n with
  | zero =>
    intro l hl
    have h : l = [] := List.length_eq_zero.mp (Nat.le_zero.mp hl)
    subst h
    simp [firstSeenDedup]
  | succ n ih =>
    intro l hl
    cases l with
    | nil => simp [firstSeenDedup]
    | cons x xs =>
      rw [firstSeenDedup]
      apply List.Sublist.cons₂
      exact List.Sublist.trans
        (ih _ (le_trans (List.length_filter_le _ _) (Nat.le_of_succ_le_succ hl)))
        (List.filter_sublist xs)

theorem firstSeenDedup_sublist (l : List (List Char)) :
    (firstSeenDedup l).Sublist l :=
  firstSeenDedup_sublist_aux l.length l le_rfl

theorem firstSeenDedup_pairwise_aux : ∀ (n : Nat) (l : List (List Char)),
    l.length ≤ n →
    List.Pairwise (fun a b => pyLower a ≠ pyLower b) (firstSeenDedup l) := by
  intro n
  induction n with
  | zero =>
    intro l hl
    have h : l = [] := List.length_eq_zero.mp (Nat.le_zero.mp hl)
    subst h
    simp [firstSeenDedup]
  | succ n ih =>
    intro l hl
    cases l with
    | nil => simp [firstSeenDedup]
    | cons x xs =>
      rw [firstSeenDedup]
      constructor
      · intro y hy
        have hmem : y ∈ xs.filter (fun y => pyLower y ≠ pyLower x) :=
          (firstSeenDedup_sublist _).subset hy
        have hq := List.of_mem_filter hmem
        simp only [decide_eq_true_eq] at hq
        exact fun hxy => hq hxy.symm
      · exact ih _ (le_trans (List.length_filter_le _ _) (Nat.le_of_succ_le_succ hl))

theorem parse_actors_eq (f : String) :
    (parse_filename f).actors = (dedupCI (discoveredActors f)).map String.mk := by
  unfold parse_filename discoveredActors
  by_cases h1 : (f.data.isEmpty || f.data.head? = some '.') = true
  · simp [h1, dedupCI, dedupCIGo]
  · simp only [h1, Bool.false_eq_true, if_false]
    by_cases h2 : (rsplitDotBase f.data).isEmpty = true
    · simp [h2, dedupCI, dedupCIGo]
    · simp only [h2, Bool.false_eq_true, if_false]

/-- C6: for every input filename, the parser's actor list contains no two
entries equal ignoring case, and it equals (up to the `String`/`List Char`
boundary) the first-seen-casing, discovery-order de-duplication of the
heuristically discovered actor names. -/
theorem parse_actors_unique (f : String) :
    List.Pairwise (fun a b : String => pyLower a.data ≠ pyLower b.data)
      (parse_filename f).actors ∧
    (parse_filename f).actors =
      (firstSeenDedup (discoveredActors f)).map String.mk := by
  have he := parse_actors_eq f
  have hd := dedupCI_eq_firstSeen (discoveredActors f)
  refine ⟨?_, by rw [he, hd]⟩
  rw [he, hd, List.pairwise_map]
  exact firstSeenDedup_pairwise_aux _ _ le_rfl

/-- Key-value coherence of one actor-map entry. -/
def keyCoherent (p : ActorKey × ActorFact) : Prop :=
  match p.1 with
  | Sum.inl i => p.2.id = some i
  | Sum.inr s => p.2.id = none ∧ s = String.mk (pyLower p.2.canonical_name.data)

/-- Well-formedness of the actor map: keys are distinct and every entry's
value is coherent with its key. -/
def amWF (m : ActorMap) : Prop :=
  (m.map Prod.fst).Nodup ∧ ∀ p ∈ m, keyCoherent p

theorem amWF_nil : amWF [] := ⟨List.nodup_nil, by simp⟩

theorem amFind_isSome_false {m : ActorMap} {k : ActorKey}
    (h : (amFind m k).isSome = false) : k ∉ m.map Prod.fst := by
  unfold amFind at h
  intro hk
  obtain ⟨p, hp, hpk⟩ := List.mem_map.mp hk
  rcases hf : List.find? (fun q => q.1 = k) m with _ | q
  · have := List.find?_eq_none.mp hf p hp
    simp [hpk] at this
  · rw [hf] at h
    simp at h

theorem amSet_keys_mem {m : ActorMap} {k : ActorKey} {v : ActorFact} {k' : ActorKey}
    (h : k' ∈ (amSet m k v).map Prod.fst) : k' = k ∨ k' ∈ m.map Prod.fst := by
  induction m with
  | nil => simpa [amSet] using h
  | cons p rest ih =>
    unfold amSet at h
    by_cases hpk : p.1 = k
    · rw [if_pos hpk] at h
      simp only [List.map_cons, List.mem_cons] at h
      rcases h with h | h
      · exact Or.inl h
      · exact Or.inr (by simp [h])
    · rw [if_neg hpk] at h
      simp only [List.map_cons, List.mem_cons] at h
      rcases h with h | h
      · exact Or.inr (by simp [h])
      · rcases ih h with h' | h'
        · exact Or.inl h'
        · exact Or.inr (by simp [h'])

theorem amSet_mem {m : ActorMap} {k : ActorKey} {v : ActorFact} {q : ActorKey × ActorFact}
    (h : q ∈ amSet m k v) : q = (k, v) ∨ q ∈ m := by
  induction m with
  | nil => simpa [amSet] using h
  | cons p rest ih =>
    unfold amSet at h
    by_cases hpk : p.1 = k
    · rw [if_pos hpk] at h
      rcases List.mem_cons.mp h with h | h
      · exact Or.inl h
      · exact Or.inr (List.mem_cons_of_mem _ h)
    · rw [if_neg hpk] at h
      rcases List.mem_cons.mp h with h | h
      · exact Or.inr (by simp [h])
      · rcases ih h with h' | h'
        · exact Or.inl h'
        · exact Or.inr (List.mem_cons_of_mem _ h')

theorem amSet_wf {m : ActorMap} {k : ActorKey} {v : ActorFact}
    (hm : amWF m) (hv : keyCoherent (k, v)) : amWF (amSet m k v) := by
  induction m with
  | nil => exact ⟨by simp [amSet], by simpa [amSet] using hv⟩
  | cons p rest ih =>
    obtain ⟨hnd, hco⟩ := hm
    simp only [List.map_cons, List.nodup_cons] at hnd
    have hrest : amWF rest := ⟨hnd.2, fun q hq => hco q (List.mem_cons_of_mem _ hq)⟩
    unfold amSet
    by_cases hpk : p.1 = k
    · rw [if_pos hpk]
      constructor
      · simp only [List.map_cons, List.nodup_cons]
        exact ⟨hpk ▸ hnd.1, hnd.2⟩
      · intro q hq
        rcases List.mem_cons.mp hq with h | h
        · subst h; exact hv
        · exact hco q (List.mem_cons_of_mem _ h)
    · rw [if_neg hpk]
      obtain ⟨hnd', hco'⟩ := ih hrest
      constructor
      · simp only [List.map_cons, List.nodup_cons]
        refine ⟨fun hmem => ?_, hnd'⟩
        rcases amSet_keys_mem hmem with h | h
        · exact hpk h
        · exact hnd.1 h
      · intro q hq
        rcases List.mem_cons.mp hq with h | h
        · exact hco q (by rw [h]; exact List.mem_cons_self _ _)
        · exact hco' q h

theorem amAppend_wf {m : ActorMap} {k : ActorKey} {v : ActorFact}
    (hm : amWF m) (hk : k ∉ m.map Prod.fst) (hv : keyCoherent (k, v)) :
    amWF (m ++ [(k, v)]) := by
  obtain ⟨hnd, hco⟩ := hm
  constructor
  · rw [List.map_append]
    apply List.Nodup.append hnd (by simp)
    intro a ha hb
    simp only [List.map_cons, List.map_nil, List.mem_singleton] at hb
    subst hb
    exact hk ha
  · intro q hq
    rcases List.mem_append.mp hq with h | h
    · exact hco q h
    · simp only [List.mem_singleton] at h
      subst h
      exact hv

theorem amSetCanonical_keys (m : ActorMap) (k : ActorKey) (c : String) :
    (amSetCanonical m k c).map Prod.fst = m.map Prod.fst := by
  induction m with
  | nil => rfl
  | cons p rest ih =>
    unfold amSetCanonical
    by_cases hpk : p.1 = k
    · rw [if_pos hpk]; simp
    · rw [if_neg hpk]; simp [ih]

theorem amSetCanonical_wf {m : ActorMap} {i : Nat} {c : String}
    (hm : amWF m) : amWF (amSetCanonical m (Sum.inl i) c) := by
  induction m with
  | nil => exact hm
  | cons p rest ih =>
    obtain ⟨hnd, hco⟩ := hm
    simp only [List.map_cons, List.nodup_cons] at hnd
    have hrest : amWF rest := ⟨hnd.2, fun q hq => hco q (List.mem_cons_of_mem _ hq)⟩
    unfold amSetCanonical
    by_cases hpk : p.1 = Sum.inl i
    · rw [if_pos hpk]
      constructor
      · simp only [List.map_cons, List.nodup_cons]
        exact ⟨hnd.1, hnd.2⟩
      · intro q hq
        rcases List.mem_cons.mp hq with h | h
        · subst h
          have := hco p (List.mem_cons_self _ _)
          unfold keyCoherent at this ⊢
          rw [hpk] at this ⊢
          exact this
        · exact hco q (List.mem_cons_of_mem _ h)
    · rw [if_neg hpk]
      obtain ⟨hnd', hco'⟩ := ih hrest
      constructor
      · simp only [List.map_cons, List.nodup_cons]
        rw [amSetCanonical_keys]
        exact ⟨hnd.1, hnd.2⟩
      · intro q hq
        rcases List.mem_cons.mp hq with h | h
        · exact hco q (by rw [h]; exact List.mem_cons_self _ _)
        · exact hco' q h

theorem filenameActorStep_wf {lookupId : String → Option Nat}
    {nameById : Nat → Option String} {m : ActorMap} {name : String}
    (hm : amWF m) : amWF (filenameActorStep lookupId nameById m name) := by
  unfold filenameActorStep
  cases h : lookupId name with
  | none =>
    dsimp only
    by_cases hf : (amFind m (Sum.inr (String.mk (pyLower name.data)))).isSome
    · rw [if_pos hf]
      exact hm
    · rw [if_neg hf]
      exact amAppend_wf hm (amFind_isSome_false (by simpa using hf)) ⟨rfl, rfl⟩
  | some id =>
    dsimp only
    by_cases hz : id ≠ 0
    · rw [if_pos hz]
      exact amSet_wf hm rfl
    · rw [if_neg hz]
      by_cases hf : (amFind m (Sum.inr (String.mk (pyLower name.data)))).isSome
      · rw [if_pos hf]
        exact hm
      · rw [if_neg hf]
        exact amAppend_wf hm (amFind_isSome_false (by simpa using hf)) ⟨rfl, rfl⟩

theorem llmActorStep_wf {lookupId : String → Option Nat}
    {nameById : Nat → Option String} {m : ActorMap} {name : String}
    (hm : amWF m) : amWF (llmActorStep lookupId nameById m name) := by
  unfold llmActorStep
  cases h : lookupId name with
  | none =>
    dsimp only
    by_cases hf : (amFind m (Sum.inr (String.mk (pyLower name.data)))).isSome
    · rw [if_pos hf]
      exact hm
    · rw [if_neg hf]
      exact amAppend_wf hm (amFind_isSome_false (by simpa using hf)) ⟨rfl, rfl⟩
  | some id =>
    dsimp only
    by_cases hz : id ≠ 0
    · rw [if_pos hz]
      by_cases hf : (amFind m (Sum.inl id)).isSome
      · rw [if_pos hf]
        exact amSetCanonical_wf hm
      · rw [if_neg hf]
        exact amAppend_wf hm (amFind_isSome_false (by simpa using hf)) rfl
    · rw [if_neg hz]
      by_cases hf : (amFind m (Sum.inr (String.mk (pyLower name.data)))).isSome
      · rw [if_pos hf]
        exact hm
      · rw [if_neg hf]
        exact amAppend_wf hm (amFind_isSome_false (by simpa using hf)) ⟨rfl, rfl⟩

theorem foldl_step_wf {α : Type} {step : ActorMap → α → ActorMap}
    (hstep : ∀ m a, amWF m → amWF (step m a)) :
    ∀ (l : List α) (m : ActorMap), amWF m → amWF (l.foldl step m) := by
  intro l
  induction l with
  | nil => intro m hm; exact hm
  | cons a t ih => intro m hm; exact ih _ (hstep m a hm)

/-- Case-insensitive distinctness of two consolidated actor facts. -/
def actorFactDistinct (a b : ActorFact) : Prop :=
  (∀ i, a.id = some i → b.id ≠ some i) ∧
  (a.id = none → b.id = none →
    pyLower a.canonical_name.data ≠ pyLower b.canonical_name.data)

theorem amWF_values_pairwise {m : ActorMap} (hm : amWF m) :
    List.Pairwise actorFactDistinct (m.map Prod.snd) := by
  obtain ⟨hnd, hco⟩ := hm
  rw [List.pairwise_map]
  have hkeys : List.Pairwise (fun p q : ActorKey × ActorFact => p.1 ≠ q.1) m :=
    List.pairwise_map.mp hnd
  refine List.Pairwise.imp_of_mem ?_ hkeys
  rintro ⟨k1, v1⟩ ⟨k2, v2⟩ hp hq hne
  have cp := hco _ hp
  have cq := hco _ hq
  constructor
  · intro i hai hbi
    apply hne
    have hk1 : k1 = Sum.inl i := by
      cases k1 with
      | inl j =>
        have : v1.id = some j := cp
        rw [hai] at this
        simp only [Option.some.injEq] at this
        rw [this]
      | inr s =>
        have : v1.id = none := cp.1
        rw [hai] at this
        exact absurd this (by simp)
    have hk2 : k2 = Sum.inl i := by
      cases k2 with
      | inl j =>
        have : v2.id = some j := cq
        rw [hbi] at this
        simp only [Option.some.injEq] at this
        rw [this]
      | inr s =>
        have : v2.id = none := cq.1
        rw [hbi] at this
        exact absurd this (by simp)
    rw [hk1, hk2]
  · intro ha hb heq
    apply hne
    have hk1 : k1 = Sum.inr (String.mk (pyLower v1.canonical_name.data)) := by
      cases k1 with
      | inl j =>
        have : v1.id = some j := cp
        rw [ha] at this
        exact absurd this (by simp)
      | inr s => rw [cp.2]
    have hk2 : k2 = Sum.inr (String.mk (pyLower v2.canonical_name.data)) := by
      cases k2 with
      | inl j =>
        have : v2.id = some j := cq
        rw [hb] at this
        exact absurd this (by simp)
      | inr s => rw [cq.2]
    rw [hk1, hk2, heq]

/-- C1: within one consolidation pass the consolidated actor list holds at
most one `ActorFact` per registry identifier and, among entries without an
identifier, at most one per lowercase canonical name (stated as pairwise
distinctness); and the parsed actor `"John Doe"` resolving to id 1 together
with an LLM actor of the same spelling resolving to the same id yields
exactly one `ActorFact`. -/
theorem consolidated_actor_invariant :
    (∀ (lookupId : String → Option Nat) (nameById : Nat → Option String)
        (parsedActors : List String) (llmActors : Option (List String)),
      List.Pairwise actorFactDistinct
        (consolidatedActorList lookupId nameById parsedActors llmActors)) ∧
    consolidatedActorList
        (fun s => if s = "John Doe" then some 1 else none)
        (fun i => if i = 1 then some "John Doe" else none)
        ["John Doe"] (some ["John Doe"]) =
      [{ id := some 1, canonical_name := "John Doe",
         source := "filename_db_match" }] := by
  constructor
  · intro lookupId nameById parsedActors llmActors
    unfold consolidatedActorList consolidate_actors
    have hbuild : amWF (buildActorsMap lookupId nameById parsedActors) :=
      foldl_step_wf (fun m a hm => filenameActorStep_wf hm) _ _ amWF_nil
    cases llmActors with
    | none => exact amWF_values_pairwise hbuild
    | some l =>
      dsimp only
      by_cases hl : l.isEmpty
      · rw [if_pos hl]
        exact amWF_values_pairwise hbuild
      · rw [if_neg hl]
        exact amWF_values_pairwise
          (foldl_step_wf (fun m a hm => llmActorStep_wf hm) _ _ hbuild)
  · decide

theorem dropWhile_all_neg {p : Char → Bool} {l : List Char}
    (h : ∀ ch ∈ l, p ch = false) : l.dropWhile p = l := by
  cases l with
  | nil => rfl
  | cons c rest =>
    rw [List.dropWhile_cons_of_neg]
    simp [h c (List.mem_cons_self _ _)]

theorem takeWhile_append_all {p : Char → Bool} {a : List Char} (b : List Char)
    (h : ∀ ch ∈ a, p ch = true) :
    (a ++ b).takeWhile p = a ++ b.takeWhile p := by
  induction a with
  | nil => rfl
  | cons c rest ih =>
    simp only [List.cons_append, List.takeWhile_cons_of_pos
      (h c (List.mem_cons_self _ _))]
    rw [ih (fun ch hch => h ch (List.mem_cons_of_mem _ hch))]

theorem dropWhile_append_all {p : Char → Bool} {a : List Char} (b : List Char)
    (h : ∀ ch ∈ a, p ch = true) :
    (a ++ b).dropWhile p = b.dropWhile p := by
  induction a with
  | nil => rfl
  | cons c rest ih =>
    simp only [List.cons_append, List.dropWhile_cons_of_pos
      (h c (List.mem_cons_self _ _))]
    exact ih (fun ch hch => h ch (List.mem_cons_of_mem _ hch))

theorem dropWhile_head_neg {p : Char → Bool} {l : List Char} {x : Char}
    (hh : l.head? = some x) (hx : p x = false) : l.dropWhile p = l := by
  cases l with
  | nil => rfl
  | cons c rest =>
    simp only [List.head?_cons, Option.some.injEq] at hh
    subst hh
    exact List.dropWhile_cons_of_neg (by simp [hx])

theorem pyStrip_no_strip {p : Char → Bool} {l : List Char} {x y : Char}
    (hh : l.head? = some x) (hx : p x = false)
    (hg : l.getLast? = some y) (hy : p y = false) : pyStrip p l = l := by
  unfold pyStrip
  rw [dropWhile_head_neg hh hx]
  rw [dropWhile_head_neg (by rw [List.head?_reverse]; exact hg) hy]
  exact List.reverse_reverse l

theorem collapseWs_all_neg : ∀ {l : List Char},
    (∀ ch ∈ l, pyWs ch = false) → collapseWs l = l := by
  intro l
  induction l with
  | nil => intro; rfl
  | cons c rest ih =>
    intro h
    have hc := h c (List.mem_cons_self _ _)
    cases rest with
    | nil => simp [collapseWs, hc]
    | cons d rest2 =>
      rw [collapseWs]
      simp only [hc, Bool.false_and, Bool.false_eq_true, if_false]
      rw [ih (fun ch hch => h ch (List.mem_cons_of_mem _ hch))]

theorem getLast?_append_right {a b : List Char} (hb : b ≠ []) :
    (a ++ b).getLast? = b.getLast? := by
  induction a with
  | nil => rfl
  | cons c a' ih =>
    rw [List.cons_append, List.getLast?_cons]
    rw [ih]
    cases b with
    | nil => exact absurd rfl hb
    | cons d b' => simp [List.getLast?_cons]

theorem replaceChar_id {a b : Char} {l : List Char}
    (h : ∀ ch ∈ l, ch ≠ a) : replaceChar a b l = l := by
  induction l with
  | nil => rfl
  | cons c rest ih =>
    unfold replaceChar at *
    simp only [List.map_cons]
    rw [if_neg (h c (List.mem_cons_self _ _))]
    congr 1
    exact ih (fun ch hch => h ch (List.mem_cons_of_mem _ hch))

theorem collapseWs2Go_append_all {a : List Char} (rest : List Char)
    (h : ∀ ch ∈ a, pyWs ch = false) :
    collapseWs2Go false (a ++ rest) = a ++ collapseWs2Go false rest := by
  induction a with
  | nil => rfl
  | cons c a' ih =>
    have hc := h c (List.mem_cons_self _ _)
    simp only [List.cons_append, collapseWs2Go, hc, Bool.false_eq_true, if_false]
    exact congrArg (c :: ·) (ih (fun ch hch => h ch (List.mem_cons_of_mem _ hch)))

theorem collapseWs2Go_all_neg {l : List Char}
    (h : ∀ ch ∈ l, pyWs ch = false) : collapseWs2Go false l = l := by
  have h2 := collapseWs2Go_append_all (a := l) [] h
  simpa [collapseWs2Go] using h2

theorem dashFind_none {l : List Char}
    (h : ∀ ch ∈ l, pyWs ch = false) : dashFind l = none := by
  induction l with
  | nil => rfl
  | cons c rest ih =>
    have hc := h c (List.mem_cons_self _ _)
    have hrest := ih (fun ch hch => h ch (List.mem_cons_of_mem _ hch))
    cases rest with
    | nil =>
      rw [dashFind]
      simp [hc]
      · rfl
      · exact fun r2 he => List.noConfusion he
    | cons d rest2 =>
      by_cases hd : d = '-'
      · subst hd
        rw [dashFind]
        simp [hc, hrest]
      · rw [dashFind]
        simp [hc, hd, hrest]
        exact fun r2 he => absurd (by injection he) hd

theorem suffixFind_none {l : List Char}
    (h : ∀ ch ∈ l, isSuffixSep ch = false) : suffixFind l = none := by
  induction l with
  | nil => rfl
  | cons c rest ih =>
    have hc := h c (List.mem_cons_self _ _)
    have hrest := ih (fun ch hch => h ch (List.mem_cons_of_mem _ hch))
    rw [suffixFind]
    simp [hc, hrest]

theorem pyWs_cases {ch : Char} (h : pyWs ch = true) :
    ch = ' ' ∨ ch = '\t' ∨ ch = '\n' ∨ ch = '\r' ∨ ch = '\x0b' ∨ ch = '\x0c' := by
  simpa [pyWs, or_assoc] using h

theorem bracketChar_not_ws {ch : Char} (h : isBracketCodeChar ch = true) :
    pyWs ch = false := by
  by_contra hw
  rcases pyWs_cases (by simpa using hw) with h' | h' | h' | h' | h' | h' <;>
    (subst h'; exact absurd h (by decide))

theorem bracketChar_not_bad {ch : Char} (h : isBracketCodeChar ch = true) :
    isSanitizeBad ch = false := by
  by_contra hb
  have hb' : isSanitizeBad ch = true := by simpa using hb
  have : ch = '\\' ∨ ch = '/' ∨ ch = ':' ∨ ch = '*' ∨ ch = '?' ∨ ch = '"' ∨
      ch = '<' ∨ ch = '>' ∨ ch = '|' := by simpa [isSanitizeBad, or_assoc] using hb'
  rcases this with h' | h' | h' | h' | h' | h' | h' | h' | h' <;>
    (subst h'; exact absurd h (by decide))

theorem alnumApos_not_ws {ch : Char} (h : (isAlnum ch || ch = '\'') = true) :
    pyWs ch = false := by
  by_contra hw
  rcases pyWs_cases (by simpa using hw) with h' | h' | h' | h' | h' | h' <;>
    (subst h'; exact absurd h (by decide))

theorem alnumApos_not_bad {ch : Char} (h : (isAlnum ch || ch = '\'') = true) :
    isSanitizeBad ch = false := by
  by_contra hb
  have hb' : isSanitizeBad ch = true := by simpa using hb
  have : ch = '\\' ∨ ch = '/' ∨ ch = ':' ∨ ch = '*' ∨ ch = '?' ∨ ch = '"' ∨
      ch = '<' ∨ ch = '>' ∨ ch = '|' := by simpa [isSanitizeBad, or_assoc] using hb'
  rcases this with h' | h' | h' | h' | h' | h' | h' | h' | h' <;>
    (subst h'; exact absurd h (by decide))

theorem alnumApos_not_suffixSep {ch : Char} (h : (isAlnum ch || ch = '\'') = true) :
    isSuffixSep ch = false := by
  rcases Bool.or_eq_true_iff.mp h with ha | ha
  · have hw : pyWs ch = false := alnumApos_not_ws h
    have hu : ch ≠ '_' := by
      intro he; subst he; exact absurd ha (by decide)
    simp [isSuffixSep, hu, hw]
  · have he : ch = '\'' := by simpa using ha
    subst he; decide

theorem alnumApos_not_strip {ch : Char} (h : (isAlnum ch || ch = '\'') = true) :
    isStripSepChar ch = false := by
  by_contra hb
  have hb' : isStripSepChar ch = true := by simpa using hb
  have : ch = ' ' ∨ ch = '_' ∨ ch = '-' ∨ ch = '.' := by
    simpa [isStripSepChar, or_assoc] using hb'
  rcases this with h' | h' | h' | h' <;>
    (subst h'; exact absurd h (by decide))

theorem alnumApos_not_spaceHyphen {ch : Char} (h : (isAlnum ch || ch = '\'') = true) :
    (ch = ' ' || ch = '-') = false := by
  by_cases h1 : ch = ' '
  · subst h1; exact absurd h (by decide)
  · by_cases h2 : ch = '-'
    · subst h2; exact absurd h (by decide)
    · simp [h1, h2]

theorem alnumApos_ne_dot {ch : Char} (h : (isAlnum ch || ch = '\'') = true) :
    ch ≠ '.' := by
  intro he; subst he; exact absurd h (by decide)

theorem alnumApos_ne_underscore {ch : Char} (h : (isAlnum ch || ch = '\'') = true) :
    ch ≠ '_' := by
  intro he; subst he; exact absurd h (by decide)

theorem bracketChar_not_rbracket : isBracketCodeChar ']' = false := by decide

theorem map_if_id {p : Char → Bool} {b : Char} {l : List Char}
    (h : ∀ ch ∈ l, p ch = false) :
    l.map (fun c => if p c then b else c) = l := by
  induction l with
  | nil => rfl
  | cons c rest ih =>
    simp only [List.map_cons]
    rw [if_neg (by simp [h c (List.mem_cons_self _ _)])]
    congr 1
    exact ih (fun ch hch => h ch (List.mem_cons_of_mem _ hch))

theorem pyStrip_all_neg {p : Char → Bool} {l : List Char}
    (h : ∀ ch ∈ l, p ch = false) : pyStrip p l = l := by
  unfold pyStrip
  rw [dropWhile_all_neg h,
    dropWhile_all_neg (fun ch hch => h ch (List.mem_reverse.mp hch)),
    List.reverse_reverse]

theorem sanitizePart_id {l : List Char}
    (hb : ∀ ch ∈ l, isSanitizeBad ch = false)
    (hw : ∀ ch ∈ l, pyWs ch = false) : sanitizePart l = l := by
  unfold sanitizePart
  rw [map_if_id hb, collapseWs_all_neg hw, pyStrip_all_neg hw]

theorem joinSpaces_pair (a b : List Char) : joinSpaces [a, b] = a ++ ' ' :: b := by
  simp [joinSpaces, List.intercalate, List.intersperse]

theorem bracketFind_bracketed (c tail : List Char) (hc : c ≠ [])
    (hcc : ∀ ch ∈ c, isBracketCodeChar ch = true) :
    bracketFind ('[' :: (c ++ ']' :: tail)) = some ([], c, tail) := by
  have htw : (c ++ ']' :: tail).takeWhile isBracketCodeChar = c := by
    rw [takeWhile_append_all _ hcc]
    simp [List.takeWhile_cons, bracketChar_not_rbracket]
  have hdw : (c ++ ']' :: tail).dropWhile isBracketCodeChar = ']' :: tail := by
    rw [dropWhile_append_all _ hcc]
    simp [List.dropWhile_cons, bracketChar_not_rbracket]
  have hcne : c.isEmpty = false := by
    cases c with
    | nil => exact absurd rfl hc
    | cons x xs => rfl
  rw [bracketFind]
  simp [htw, hdw, hcne]

theorem pyStrip_space_cons {t : List Char}
    (htc : ∀ ch ∈ t, (isAlnum ch || ch = '\'') = true) :
    pyStrip isStripSepChar (' ' :: t) = t := by
  have hall : ∀ ch ∈ t, isStripSepChar ch = false :=
    fun ch hch => alnumApos_not_strip (htc ch hch)
  unfold pyStrip
  rw [List.dropWhile_cons_of_pos (by decide)]
  rw [dropWhile_all_neg hall,
    dropWhile_all_neg (fun ch hch => hall ch (List.mem_reverse.mp hch)),
    List.reverse_reverse]

theorem extractCode_bracketed (c t : List Char) (hc : c ≠ [])
    (hcc : ∀ ch ∈ c, isBracketCodeChar ch = true) (_ht : t ≠ [])
    (htc : ∀ ch ∈ t, (isAlnum ch || ch = '\'') = true) :
    extractCode ('[' :: (c ++ ']' :: ' ' :: t)) = (some c, t) := by
  unfold extractCode
  rw [bracketFind_bracketed c (' ' :: t) hc hcc]
  simp only [List.nil_append]
  rw [pyStrip_space_cons htc]

theorem parseBase_bracketed (c t : List Char) (hc : c ≠ [])
    (hcc : ∀ ch ∈ c, isBracketCodeChar ch = true) (ht : t ≠ [])
    (htc : ∀ ch ∈ t, (isAlnum ch || ch = '\'') = true) :
    parseBase ('[' :: (c ++ ']' :: ' ' :: t)) = (some c, [], [], t) := by
  have hws : ∀ ch ∈ t, pyWs ch = false :=
    fun ch hch => alnumApos_not_ws (htc ch hch)
  have hss : ∀ ch ∈ t, isSuffixSep ch = false :=
    fun ch hch => alnumApos_not_suffixSep (htc ch hch)
  unfold parseBase
  rw [extractCode_bracketed c t hc hcc ht htc]
  simp only [extractActorsDash, dashFind_none hws, extractActorsSuffix,
    suffixFind_none hss]
  rfl

theorem normalizeTitle_clean (t c : List Char) (ht : t ≠ [])
    (htc : ∀ ch ∈ t, (isAlnum ch || ch = '\'') = true)
    (hne : pyLower t ≠ pyLower c) :
    normalizeTitle t (some c) = some t := by
  have hni : t.isEmpty = false := by
    cases t with
    | nil => exact absurd rfl ht
    | cons x xs => rfl
  unfold normalizeTitle
  dsimp only
  rw [if_neg (by simp [hni])]
  rw [replaceChar_id (fun ch hch => alnumApos_ne_dot (htc ch hch))]
  rw [replaceChar_id (fun ch hch => alnumApos_ne_underscore (htc ch hch))]
  rw [collapseWs_all_neg (fun ch hch => alnumApos_not_ws (htc ch hch))]
  rw [pyStrip_all_neg (fun ch hch => alnumApos_not_spaceHyphen (htc ch hch))]
  rw [if_neg (by simp [hne])]
  rw [if_neg (by simp [hni])]

theorem collapseWs2_isolated_space {a t : List Char}
    (ha : ∀ ch ∈ a, pyWs ch = false) (ht : t ≠ [])
    (htw : ∀ ch ∈ t, pyWs ch = false) :
    collapseWs2 (a ++ ' ' :: t) = a ++ ' ' :: t := by
  unfold collapseWs2
  rw [collapseWs2Go_append_all _ ha]
  congr 1
  cases t with
  | nil => exact absurd rfl ht
  | cons d t' =>
    rw [collapseWs2Go]
    simp only [if_pos (by decide : pyWs ' ' = true)]
    rw [if_neg (by simp)]
    rw [if_neg (by simp [htw d (List.mem_cons_self _ _)])]
    rw [collapseWs2Go_all_neg htw]

theorem pyStrip_ws_ends {l : List Char} {x y : Char}
    (hh : l.head? = some x) (hx : pyWs x = false)
    (hg : l.getLast? = some y) (hy : pyWs y = false) :
    pyStrip pyWs l = l :=
  pyStrip_no_strip hh hx hg hy

theorem gsf_bracketed (c t : List Char) (pub ofn : Option String) (ext : String)
    (hc : c ≠ []) (hcc : ∀ ch ∈ c, isBracketCodeChar ch = true)
    (ht : t ≠ []) (htc : ∀ ch ∈ t, (isAlnum ch || ch = '\'') = true)
    (hlen : c.length + t.length + 3 ≤ 200) :
    generate_standardized_filename
        { code := some (String.mk c), publisher := pub, title := some (String.mk t),
          actors := [], original_filename_for_fallback := ofn } ext =
      String.mk (('[' :: (c ++ [']'])) ++ ' ' :: t ++ validExt ext) := by
  have hcne : c.isEmpty = false := by
    cases c with
    | nil => exact absurd rfl hc
    | cons x xs => rfl
  have htne : t.isEmpty = false := by
    cases t with
    | nil => exact absurd rfl ht
    | cons x xs => rfl
  have hcsan : sanitizePart c = c :=
    sanitizePart_id (fun ch hch => bracketChar_not_bad (hcc ch hch))
      (fun ch hch => bracketChar_not_ws (hcc ch hch))
  have htsan : sanitizePart t = t :=
    sanitizePart_id (fun ch hch => alnumApos_not_bad (htc ch hch))
      (fun ch hch => alnumApos_not_ws (htc ch hch))
  have hbr : gsfBracket
      { code := some (String.mk c), publisher := pub, title := some (String.mk t),
        actors := [], original_filename_for_fallback := ofn } =
      '[' :: (c ++ [']']) := by
    unfold gsfBracket truthyD
    simp only [hcne, Bool.false_eq_true, if_false]
    rw [hcsan]
  have hti : gsfTitlePart
      { code := some (String.mk c), publisher := pub, title := some (String.mk t),
        actors := [], original_filename_for_fallback := ofn } = t := by
    unfold gsfTitlePart truthyD
    simp only [htne, Bool.false_eq_true, if_false]
    rw [htsan]
  have hbrws : ∀ ch ∈ '[' :: (c ++ [']']), pyWs ch = false := by
    intro ch hch
    rcases List.mem_cons.mp hch with h | h
    · subst h; decide
    · rcases List.mem_append.mp h with h' | h'
      · exact bracketChar_not_ws (hcc ch h')
      · simp only [List.mem_singleton] at h'
        subst h'; decide
  have htws : ∀ ch ∈ t, pyWs ch = false :=
    fun ch hch => alnumApos_not_ws (htc ch hch)
  have hparts : gsfParts
      { code := some (String.mk c), publisher := pub, title := some (String.mk t),
        actors := [], original_filename_for_fallback := ofn } =
      ['[' :: (c ++ [']']), t] := by
    unfold gsfParts
    rw [hbr, hti]
    simp [gsfActorSegment, gsfActorNames, sortPyStrings]
  have hjoin : joinSpaces ['[' :: (c ++ [']']), t] =
      ('[' :: (c ++ [']'])) ++ ' ' :: t := joinSpaces_pair _ _
  have hlast : (('[' :: (c ++ [']'])) ++ ' ' :: t).getLast? = t.getLast? := by
    rw [getLast?_append_right (by simp)]
    exact getLast?_append_right (a := [' ']) (by
      cases t with
      | nil => exact absurd rfl ht
      | cons x xs => simp)
  obtain ⟨y, hy⟩ : ∃ y, t.getLast? = some y := by
    cases t with
    | nil => exact absurd rfl ht
    | cons x xs => exact ⟨_, List.getLast?_eq_getLast _ (by simp)⟩
  have hyw : pyWs y = false := by
    have : y ∈ t := by
      have := List.getLast?_eq_getLast (l := t) ?hne
      case hne => exact ht
      rw [this] at hy
      simp only [Option.some.injEq] at hy
      rw [← hy]
      exact List.getLast_mem _
    exact htws y this
  have hstrip1 : pyStrip pyWs (('[' :: (c ++ [']'])) ++ ' ' :: t) =
      ('[' :: (c ++ [']'])) ++ ' ' :: t := by
    apply pyStrip_ws_ends (x := '[') (y := y)
    · simp
    · decide
    · rw [hlast]; exact hy
    · exact hyw
  have hcoll : collapseWs2 (('[' :: (c ++ [']'])) ++ ' ' :: t) =
      ('[' :: (c ++ [']'])) ++ ' ' :: t :=
    collapseWs2_isolated_space hbrws ht htws
  have hbase : gsfBase
      { code := some (String.mk c), publisher := pub, title := some (String.mk t),
        actors := [], original_filename_for_fallback := ofn } =
      ('[' :: (c ++ [']'])) ++ ' ' :: t := by
    unfold gsfBase
    rw [hparts, hjoin, hstrip1, hcoll, hstrip1]
  unfold generate_standardized_filename
  dsimp only
  rw [hbase, hbr]
  rw [if_neg (by simp)]
  unfold truncate200
  rw [if_neg (by
    simp only [List.length_append, List.length_cons, List.length_append,
      List.length_singleton, List.length_nil]
    omega)]

theorem rsplit_dot_append {B r : List Char} (hr : ∀ ch ∈ r, ch ≠ '.') :
    rsplitDotBase (B ++ '.' :: r) = B := by
  unfold rsplitDotBase
  rw [if_pos (by
    have hmem : '.' ∈ B ++ '.' :: r :=
      List.mem_append_right _ (List.mem_cons_self _ _)
    simp only [List.elem_eq_mem, decide_eq_true_eq]
    exact hmem)]
  rw [List.reverse_append, List.reverse_cons]
  rw [List.append_assoc, List.singleton_append]
  rw [dropWhile_append_all _ (fun ch hch => by
    simp only [decide_eq_true_eq]
    exact hr ch (List.mem_reverse.mp hch))]
  rw [List.dropWhile_cons_of_neg (by simp)]
  simp

theorem parse_bracketed (c t r : List Char) (hc : c ≠ [])
    (hcc : ∀ ch ∈ c, isBracketCodeChar ch = true) (ht : t ≠ [])
    (htc : ∀ ch ∈ t, (isAlnum ch || ch = '\'') = true)
    (hne : pyLower t ≠ pyLower c) (hr : ∀ ch ∈ r, ch ≠ '.') :
    parse_filename (String.mk (('[' :: (c ++ ']' :: ' ' :: t)) ++ '.' :: r)) =
      { code := some (String.mk c), actors := [], title := some (String.mk t),
        original_filename :=
          String.mk (('[' :: (c ++ ']' :: ' ' :: t)) ++ '.' :: r) } := by
  have htne : t.isEmpty = false := by
    cases t with
    | nil => exact absurd rfl ht
    | cons x xs => rfl
  unfold parse_filename
  dsimp only
  rw [if_neg (by simp [List.cons_append])]
  rw [rsplit_dot_append hr]
  rw [if_neg (by simp)]
  rw [parseBase_bracketed c t hc hcc ht htc]
  dsimp only
  rw [normalizeTitle_clean t c ht htc hne]
  simp only [dedupCI, dedupCIGo, List.nil_append]
  rw [if_neg (by simp [optTruthyL, htne])]
  rw [if_neg (by simp [optTruthyL, htne])]
  rfl

/-- C9 counterexample: the consolidated record with code `"C-1"`, title
`"Lonely Robot"` and no actors renders as `"[C-1] Lonely Robot.mp4"`, and
re-parsing that output extracts title `"Lonely"` (the suffix heuristic takes
`"Robot"` as an actor), so the extracted title differs from the record's. -/
theorem roundtrip_counterexample :
    generate_standardized_filename
        { code := some "C-1", publisher := none, title := some "Lonely Robot",
          actors := [], original_filename_for_fallback := some "x.mp4" } ".mp4" =
      "[C-1] Lonely Robot.mp4" ∧
    (parse_filename "[C-1] Lonely Robot.mp4").code = some "C-1" ∧
    (parse_filename "[C-1] Lonely Robot.mp4").title = some "Lonely" ∧
    (parse_filename "[C-1] Lonely Robot.mp4").title ≠ some "Lonely Robot" := by
  exact ⟨by decide, by decide, by decide, by decide⟩

/-- C9 (amended): for a consolidated record with a nonempty code of bracket
characters, a title that is one separator-free token of alphanumerics and
apostrophes differing case-insensitively from the code, no rendered actors, a
well-formed dot-free extension and a total length within the 200-character
cap, re-parsing the standardized filename recovers exactly the record's code
and title. -/
theorem roundtrip_bracketed (c t r : List Char) (pub ofn : Option String)
    (ext : String)
    (hc : c ≠ []) (hcc : ∀ ch ∈ c, isBracketCodeChar ch = true)
    (ht : t ≠ []) (htc : ∀ ch ∈ t, (isAlnum ch || ch = '\'') = true)
    (hne : pyLower t ≠ pyLower c)
    (hext : ext.data = '.' :: r) (hr : ∀ ch ∈ r, ch ≠ '.')
    (hlen : c.length + t.length + 3 ≤ 200) :
    (parse_filename (generate_standardized_filename
        { code := some (String.mk c), publisher := pub,
          title := some (String.mk t), actors := [],
          original_filename_for_fallback := ofn } ext)).code =
      some (String.mk c) ∧
    (parse_filename (generate_standardized_filename
        { code := some (String.mk c), publisher := pub,
          title := some (String.mk t), actors := [],
          original_filename_for_fallback := ofn } ext)).title =
      some (String.mk t) := by
  have hv : validExt ext = '.' :: r := by
    unfold validExt
    rw [hext]
    rfl
  have hfix : generate_standardized_filename
      { code := some (String.mk c), publisher := pub,
        title := some (String.mk t), actors := [],
        original_filename_for_fallback := ofn } ext =
      String.mk (('[' :: (c ++ ']' :: ' ' :: t)) ++ '.' :: r) := by
    rw [gsf_bracketed c t pub ofn ext hc hcc ht htc hlen, hv]
    congr 1
    simp [List.append_assoc, List.cons_append, List.singleton_append]
  rw [hfix, parse_bracketed c t r hc hcc ht htc hne hr]
  exact ⟨rfl, rfl⟩

/-- C9 amended witness: code `"ABC-123"`, title `"Inception"`, extension
`".mp4"` round-trip unchanged. -/
theorem roundtrip_bracketed_witness :
    (parse_filename (generate_standardized_filename
        { code := some "ABC-123", publisher := none, title := some "Inception",
          actors := [], original_filename_for_fallback := none } ".mp4")).code =
      some "ABC-123" ∧
    (parse_filename (generate_standardized_filename
        { code := some "ABC-123", publisher := none, title := some "Inception",
          actors := [], original_filename_for_fallback := none } ".mp4")).title =
      some "Inception" := by
  have h := roundtrip_bracketed "ABC-123".data "Inception".data "mp4".data
    none none ".mp4" (by decide) (by decide) (by decide) (by decide)
    (by decide) (by decide) (by decide) (by decide)
  exact h

end VCMS
